import Mathlib

/-!
Verification of the quote aggregation pipeline of `trmnl-more-quotes-plugin`
(`scripts/generate-dataset.py` and `scripts/generate-options.py`).

The Python functions are shallowly embedded over `String` / `List`:
strings are Lean `String`s manipulated through their character lists
(`str.strip()` becomes `pyStrip`, `str.lower()` becomes `pyLower`,
`str.capitalize()` becomes `pyCapitalize`), Python dicts whose insertion
order is observable become association lists (`lookupA` / `putA`), and
Python `set` lookup tables become lists queried by membership.  Records
are structures; for the safety analysis of missing dict keys a second
record type with optional fields is used, and the functions that would
raise `KeyError` there return `Option` (`none` models the raised error).
The character predicates (`Char.isWhitespace`, `Char.isAlphanum`,
`Char.toLower`, `Char.toUpper`) model the Python semantics on the ASCII
range, which covers every string the claims mention.
-/

/-- Python `s.strip()`: drop whitespace from both ends of the string. -/
def pyStrip (s : String) : String :=
  ⟨((s.data.dropWhile Char.isWhitespace).reverse.dropWhile Char.isWhitespace).reverse⟩

/-- Python `s.lower()`: lower-case every character. -/
def pyLower (s : String) : String :=
  ⟨s.data.map Char.toLower⟩

/-- The dedup key `quote["text"].strip().lower()` used throughout
`generate-dataset.py`. -/
def normText (s : String) : String :=
  pyLower (pyStrip s)

/-- A quote record as built by the fetchers of `generate-dataset.py`:
`{"text": ..., "author": ..., "source": ..., "tags": [...]}`. -/
structure Quote where
  text : String
  author : String
  source : String
  tags : List String
deriving DecidableEq, Repr

/-- The normalized dedup key of a record, derived from its `text` field. -/
def quoteKey (q : Quote) : String :=
  normText q.text

/-- The `for quote in new` loop of `merge_quotes` (generate-dataset.py,
lines 393-398): `seen` is the `existing_texts` set, `merged` and `added`
are the accumulators. -/
def mergeLoop (seen : List String) (merged : List Quote) (added : Nat) :
    List Quote → List Quote × Nat
  | [] => (merged, added)
  | q :: new =>
    if pyStrip q.text = "" then
      mergeLoop seen merged added new
    else if normText q.text ∈ seen then
      mergeLoop seen merged added new
    else
      mergeLoop (normText q.text :: seen) (merged ++ [q]) (added + 1) new

/-- `merge_quotes(existing, new)` of generate-dataset.py, lines 386-400:
build the lookup set of normalized texts of `existing`, copy `existing`,
then fold the loop over `new`. -/
def merge_quotes (existing new : List Quote) : List Quote × Nat :=
  mergeLoop (existing.map quoteKey) existing 0 new

/-- Modelled from the spec's words (§4.3): the sub-list of `incoming` the
merge loop accepts, given the lookup set `seen`. "For each record in
`incoming`, in input order: skip if text is empty after trimming; skip if
normalized text already present; otherwise append to output and add to
the lookup set." -/
def spec_accepted (seen : List String) : List Quote → List Quote
  | [] => []
  | q :: new =>
    if pyStrip q.text = "" then
      spec_accepted seen new
    else if normText q.text ∈ seen then
      spec_accepted seen new
    else
      q :: spec_accepted (normText q.text :: seen) new

/-- The count of incoming records exactly as claim C1 words it: records of
`incoming` "whose trimmed, case-folded text is non-empty and does not occur
in the set of trimmed, case-folded texts of `existing`" (counted per
record, duplicates inside `incoming` counted every time they occur). -/
def claimNewCount (existing incoming : List Quote) : Nat :=
  (incoming.filter
    (fun q => decide (normText q.text ≠ "" ∧
      normText q.text ∉ existing.map quoteKey))).length

/-- Characters kept by `re.sub(r'[^\w\s-]', '', text)`: word characters.
`\w` on ASCII is letters, digits and the underscore. -/
def isWordChar (c : Char) : Bool :=
  c.isAlphanum || c == '_'

/-- Characters matched by the class `[-\s]` of `re.sub(r'[-\s]+', '-', text)`. -/
def isSpaceOrHyphen (c : Char) : Bool :=
  c.isWhitespace || c == '-'

/-- `re.sub(r'[-\s]+', '-', text)`: collapse every run of whitespace or
hyphens to a single hyphen.  The flag records whether the previous
character belonged to such a run. -/
def collapseAux : Bool → List Char → List Char
  | _, [] => []
  | inRun, c :: rest =>
    if isSpaceOrHyphen c then
      if inRun then collapseAux true rest
      else '-' :: collapseAux true rest
    else
      c :: collapseAux false rest

/-- Python `text.strip('-')`: drop `'-'` from both ends of the character list. -/
def stripHyphenEnds (l : List Char) : List Char :=
  ((l.dropWhile (· == '-')).reverse.dropWhile (· == '-')).reverse

/-- `slugify` of generate-dataset.py lines 140-145 (identical copy in
generate-options.py lines 20-26): lower-case, delete the characters that
are not word characters, whitespace or hyphens, collapse whitespace/hyphen
runs to a single hyphen, strip hyphens from the ends. -/
def slugify (s : String) : String :=
  ⟨stripHyphenEnds (collapseAux false
    ((s.data.map Char.toLower).filter
      (fun c => isWordChar c || c.isWhitespace || c == '-')))⟩

/-- Collapse every run of non-alphanumeric characters to a single hyphen
(the transformation claim C5 describes). -/
def collapseClaimAux : Bool → List Char → List Char
  | _, [] => []
  | inRun, c :: rest =>
    if c.isAlphanum then
      c :: collapseClaimAux false rest
    else if inRun then
      collapseClaimAux true rest
    else
      '-' :: collapseClaimAux true rest

/-- Modelled from the claim's words (C5): the string lowercased with every
run of non-alphanumeric characters collapsed to a single hyphen and
leading/trailing hyphens stripped. -/
def slugifyClaim (s : String) : String :=
  ⟨stripHyphenEnds (collapseClaimAux false (s.data.map Char.toLower))⟩

/-- A persisted quote record as `load_existing_quotes` sees it: the
`tags` key may be absent (legacy nested format). -/
structure LQuote where
  text : String
  author : String
  tags? : Option (List String)
deriving DecidableEq, Repr

/-- The body of the legacy conversion loop (generate-dataset.py lines
163-166): `if "tags" not in quote: quote["tags"] = [tag]`. -/
def tagIfMissing (tag : String) (q : LQuote) : LQuote :=
  match q.tags? with
  | none => { q with tags? := some [tag] }
  | some _ => q

/-- The `for tag, quotes in data.items(): for quote in quotes: ...` loop of
`load_existing_quotes` (generate-dataset.py lines 161-167), over the
persisted object read as an ordered association list. -/
def convertNested : List (String × List LQuote) → List LQuote
  | [] => []
  | (tag, qs) :: rest => qs.map (tagIfMissing tag) ++ convertNested rest

/-- The three persisted shapes `load_existing_quotes` accepts: a flat
list, an envelope `{"quotes": [...]}`, or the legacy nested object
mapping tag names to record lists. -/
inductive Persisted where
  | flat (qs : List LQuote)
  | envelope (qs : List LQuote)
  | nested (entries : List (String × List LQuote))

/-- The shape dispatch of `load_existing_quotes` (generate-dataset.py
lines 148-173), restricted to its pure part: which record list an
already-parsed persisted object yields. -/
def load_existing_quotes : Persisted → List LQuote
  | .flat qs => qs
  | .envelope qs => qs
  | .nested entries => convertNested entries

/-- Lookup in a Python dict modelled as an insertion-ordered association
list. -/
def lookupA {α : Type} : List (String × α) → String → Option α
  | [], _ => none
  | (k, v) :: rest, key => if k = key then some v else lookupA rest key

/-- Assignment `d[key] = v` on a Python dict modelled as an
insertion-ordered association list: overwrite in place, or append a new
key at the end. -/
def putA {α : Type} : List (String × α) → String → α → List (String × α)
  | [], key, v => [(key, v)]
  | (k, w) :: rest, key, v =>
    if k = key then (k, v) :: rest else (k, w) :: putA rest key v

/-- `tags_db[tag]` after the `if tag not in tags_db: tags_db[tag] = []`
guard: the bucket of a tag, empty when the tag is absent. -/
def getBucket (db : List (String × List Quote)) (tag : String) : List Quote :=
  (lookupA db tag).getD []

/-- The body of the inner loop of `organize_by_tags` (generate-dataset.py
lines 409-416): ensure the bucket exists, then append the quote unless a
record with the same normalized text is already in this bucket. -/
def addQuoteToTag (db : List (String × List Quote)) (q : Quote) (tag : String) :
    List (String × List Quote) :=
  if quoteKey q ∈ (getBucket db tag).map quoteKey then db
  else putA db tag (getBucket db tag ++ [q])

/-- The `for tag in tags` loop of `organize_by_tags`. -/
def addQuoteTags (q : Quote) : List (String × List Quote) → List String →
    List (String × List Quote)
  | db, [] => db
  | db, tag :: rest => addQuoteTags q (addQuoteToTag db q tag) rest

/-- The `for quote in all_quotes` loop of `organize_by_tags`. -/
def organizeLoop : List (String × List Quote) → List Quote →
    List (String × List Quote)
  | db, [] => db
  | db, q :: qs => organizeLoop (addQuoteTags q db q.tags) qs

/-- `organize_by_tags(all_quotes)` of generate-dataset.py lines 403-418. -/
def organize_by_tags (all_quotes : List Quote) : List (String × List Quote) :=
  organizeLoop [] all_quotes

/-- A parsed tag partition file as `load_tag_stats` reads it: the file
stem, and the optional `"tag"` and `"count"` entries of its JSON object. -/
structure TagFileData where
  stem : String
  tagEntry : Option String
  countEntry : Option Nat
deriving DecidableEq, Repr

/-- The `for tag_file in TAGS_DIR.glob("*.json")` loop of `load_tag_stats`
(generate-options.py lines 37-45): an unreadable or unparsable file
(`none`) is skipped with a warning, otherwise
`tag_stats[data.get("tag", stem)] = data.get("count", 0)`. -/
def loadStatsLoop : List (String × Nat) → List (Option TagFileData) →
    List (String × Nat)
  | stats, [] => stats
  | stats, none :: rest => loadStatsLoop stats rest
  | stats, some f :: rest =>
    loadStatsLoop (putA stats (f.tagEntry.getD f.stem) (f.countEntry.getD 0)) rest

/-- `load_tag_stats()` of generate-options.py lines 29-47: when the tags
directory is missing (`none`) warn and return the empty dict, otherwise
fold over the directory's files. -/
def load_tag_stats : Option (List (Option TagFileData)) → List (String × Nat)
  | none => []
  | some files => loadStatsLoop [] files

/-- Python `s.capitalize()`: first character upper-cased, the rest
lower-cased. -/
def pyCapitalize (s : String) : String :=
  match s.data with
  | [] => s
  | c :: rest => ⟨c.toUpper :: rest.map Char.toLower⟩

/-- Insert one entry into a list already sorted by tag key (Python string
order is lexicographic by code point, which is `List.lt` on the
character data). -/
def insertByKey (p : String × Nat) : List (String × Nat) → List (String × Nat)
  | [] => [p]
  | q :: rest => if p.1.data < q.1.data then p :: q :: rest else q :: insertByKey p rest

/-- `sorted(tag_stats.items(), key=lambda x: x[0])` of generate-options.py
line 109, as an insertion sort by tag key. -/
def sortByKey : List (String × Nat) → List (String × Nat)
  | [] => []
  | p :: rest => insertByKey p (sortByKey rest)

/-- One field descriptor of the generated options document, restricted to
the entries the claims are about: `keyname`, `name`, `field_type`, and
the `(label, value)` option pairs (empty for non-select fields). -/
structure OptionsField where
  keyname : String
  name : String
  field_type : String
  options : List (String × String)
deriving DecidableEq, Repr

/-- The `about` field built first by `create_options_yml`
(generate-options.py lines 97-104). -/
def aboutField : OptionsField :=
  { keyname := "about", name := "About This Plugin",
    field_type := "author_bio", options := [] }

/-- The option list of the tags field (generate-options.py lines 109-113):
one `{f"{tag.capitalize()}: {count}": tag}` pair per tag, sorted
alphabetically by the raw tag key. -/
def tagOptions (tag_stats : List (String × Nat)) : List (String × String) :=
  (sortByKey tag_stats).map
    (fun p => (pyCapitalize p.1 ++ ": " ++ toString p.2, p.1))

/-- The document construction of `create_options_yml` (generate-options.py
lines 94-126): the `about` field always, then — only when `tag_stats` is
non-empty — the `tags` select field; with an empty `tag_stats` the tags
field is skipped with a warning. -/
def create_options_yml (tag_stats : List (String × Nat)) : List OptionsField :=
  if tag_stats.isEmpty then [aboutField]
  else [aboutField,
    { keyname := "tags", name := "Tags", field_type := "select",
      options := tagOptions tag_stats }]

/-- A quote record modelled as the Python dict it really is: each of the
`"text"`, `"author"` and `"tags"` keys may be absent. -/
structure DQuote where
  text? : Option String
  author? : Option String
  tags? : Option (List String)
deriving DecidableEq, Repr

/-- The set comprehension `{q["text"].strip().lower() for q in l}` over
dict records: `none` models the `KeyError` raised when some record has no
`"text"` key. -/
def textKeys : List DQuote → Option (List String)
  | [] => some []
  | q :: rest =>
    match q.text? with
    | none => none
    | some s => (textKeys rest).map (fun ks => normText s :: ks)

/-- The loop of `merge_quotes` over dict records: `quote["text"]` raises
(`none`) when the key is absent. -/
def mergeLoopD (seen : List String) (merged : List DQuote) (added : Nat) :
    List DQuote → Option (List DQuote × Nat)
  | [] => some (merged, added)
  | q :: rest =>
    match q.text? with
    | none => none
    | some s =>
      if pyStrip s = "" then mergeLoopD seen merged added rest
      else if normText s ∈ seen then mergeLoopD seen merged added rest
      else mergeLoopD (normText s :: seen) (merged ++ [q]) (added + 1) rest

/-- `merge_quotes` over dict records: building the lookup set already
accesses `quote["text"]` of every record of `existing`. -/
def merge_quotesD (existing new : List DQuote) : Option (List DQuote × Nat) :=
  match textKeys existing with
  | none => none
  | some keys => mergeLoopD keys existing 0 new

/-- The bucket of a key in a dict-record partition. -/
def getBucketD (db : List (String × List DQuote)) (tag : String) : List DQuote :=
  (lookupA db tag).getD []

/-- The inner-loop body of `organize_by_tags` over dict records: the
bucket's key set is built first, then `quote["text"]` is accessed; either
step raises (`none`) on a record with no `"text"` key. -/
def addDQuoteToTag (db : List (String × List DQuote)) (q : DQuote) (tag : String) :
    Option (List (String × List DQuote)) :=
  match textKeys (getBucketD db tag), q.text? with
  | some keys, some s =>
    if normText s ∈ keys then some db
    else some (putA db tag (getBucketD db tag ++ [q]))
  | _, _ => none

/-- The `for tag in quote.get("tags", [])` loop of `organize_by_tags` over
dict records. -/
def addDQuoteTags (q : DQuote) : List (String × List DQuote) → List String →
    Option (List (String × List DQuote))
  | db, [] => some db
  | db, tag :: rest =>
    match addDQuoteToTag db q tag with
    | none => none
    | some db2 => addDQuoteTags q db2 rest

/-- The outer loop of `organize_by_tags` over dict records. -/
def organizeTagsLoopD : List (String × List DQuote) → List DQuote →
    Option (List (String × List DQuote))
  | db, [] => some db
  | db, q :: qs =>
    match addDQuoteTags q db (q.tags?.getD []) with
    | none => none
    | some db2 => organizeTagsLoopD db2 qs

/-- `organize_by_tags` over dict records (generate-dataset.py lines
403-418): a record with no `"text"` key but at least one tag raises. -/
def organize_by_tagsD (all_quotes : List DQuote) :
    Option (List (String × List DQuote)) :=
  organizeTagsLoopD [] all_quotes

/-- The loop body of `organize_by_authors` over dict records
(generate-dataset.py lines 425-433): `quote.get("author", "Unknown")`
never raises, but the bucket dedup check accesses `quote["text"]`. -/
def addDQuoteAuthor (db : List (String × List DQuote)) (q : DQuote) :
    Option (List (String × List DQuote)) :=
  match textKeys (getBucketD db (q.author?.getD "Unknown")), q.text? with
  | some keys, some s =>
    if normText s ∈ keys then some db
    else some (putA db (q.author?.getD "Unknown")
      (getBucketD db (q.author?.getD "Unknown") ++ [q]))
  | _, _ => none

/-- The outer loop of `organize_by_authors` over dict records. -/
def organizeAuthorsLoopD : List (String × List DQuote) → List DQuote →
    Option (List (String × List DQuote))
  | db, [] => some db
  | db, q :: qs =>
    match addDQuoteAuthor db q with
    | none => none
    | some db2 => organizeAuthorsLoopD db2 qs

/-- `organize_by_authors` over dict records (generate-dataset.py lines
421-435). -/
def organize_by_authorsD (all_quotes : List DQuote) :
    Option (List (String × List DQuote)) :=
  organizeAuthorsLoopD [] all_quotes


/-- The merge loop returns the original accumulator followed by the
accepted records, and counts exactly the accepted records. -/
theorem mergeLoop_eq (new : List Quote) :
    ∀ (seen : List String) (merged : List Quote) (added : Nat),
      mergeLoop seen merged added new =
        (merged ++ spec_accepted seen new,
         added + (spec_accepted seen new).length) := by
  induction new with
  | nil => intro seen merged added; simp [mergeLoop, spec_accepted]
  | cons q new ih =>
    intro seen merged added
    by_cases h1 : pyStrip q.text = ""
    · simp [mergeLoop, spec_accepted, h1, ih]
    · by_cases h2 : normText q.text ∈ seen
      · simp [mergeLoop, spec_accepted, h1, h2, ih]
      · simp only [mergeLoop, spec_accepted, h1, h2, if_neg, if_pos, ite_false, ite_true, ih]
        refine Prod.ext ?_ ?_
        · simp
        · simp; omega

/-- `merge_quotes` appends the accepted records of `new` to `existing` and
reports their number. -/
theorem merge_quotes_eq (existing new : List Quote) :
    merge_quotes existing new =
      (existing ++ spec_accepted (existing.map quoteKey) new,
       (spec_accepted (existing.map quoteKey) new).length) := by
  simp [merge_quotes, mergeLoop_eq]

/-- An accepted record comes from `new`, has non-empty trimmed text, and
its key was not in the initial lookup set. -/
theorem spec_accepted_mem (new : List Quote) :
    ∀ (seen : List String) (q : Quote), q ∈ spec_accepted seen new →
      q ∈ new ∧ pyStrip q.text ≠ "" ∧ normText q.text ∉ seen := by
  induction new with
  | nil => intro seen q h; simp [spec_accepted] at h
  | cons p new ih =>
    intro seen q h
    by_cases h1 : pyStrip p.text = ""
    · simp only [spec_accepted, h1, ite_true] at h
      obtain ⟨hq, h2, h3⟩ := ih seen q h
      exact ⟨List.mem_cons_of_mem _ hq, h2, h3⟩
    · by_cases h2 : normText p.text ∈ seen
      · simp only [spec_accepted, h1, h2, ite_true, ite_false] at h
        obtain ⟨hq, h3, h4⟩ := ih seen q h
        exact ⟨List.mem_cons_of_mem _ hq, h3, h4⟩
      · simp only [spec_accepted, h1, h2, ite_false, List.mem_cons] at h
        rcases h with rfl | h
        · exact ⟨List.mem_cons_self _ _, h1, h2⟩
        · obtain ⟨hq, h3, h4⟩ := ih _ q h
          refine ⟨List.mem_cons_of_mem _ hq, h3, fun hc => h4 ?_⟩
          exact List.mem_cons_of_mem _ hc

/-- The accepted records form a sub-list of `new`: they keep their fetch
order. -/
theorem spec_accepted_sublist (new : List Quote) :
    ∀ seen, (spec_accepted seen new).Sublist new := by
  induction new with
  | nil => intro seen; simp [spec_accepted]
  | cons p new ih =>
    intro seen
    by_cases h1 : pyStrip p.text = ""
    · simpa [spec_accepted, h1] using (ih seen).cons p
    · by_cases h2 : normText p.text ∈ seen
      · simpa [spec_accepted, h1, h2] using (ih seen).cons p
      · simpa [spec_accepted, h1, h2] using (ih (normText p.text :: seen)).cons₂ p

/-- The accepted records have pairwise distinct normalized keys. -/
theorem spec_accepted_key_nodup (new : List Quote) :
    ∀ seen, ((spec_accepted seen new).map quoteKey).Nodup := by
  induction new with
  | nil => intro seen; simp [spec_accepted]
  | cons p new ih =>
    intro seen
    by_cases h1 : pyStrip p.text = ""
    · simpa [spec_accepted, h1] using ih seen
    · by_cases h2 : normText p.text ∈ seen
      · simpa [spec_accepted, h1, h2] using ih seen
      · simp only [spec_accepted, h1, h2, ite_false, List.map_cons, List.nodup_cons]
        constructor
        · intro hmem
          rcases List.mem_map.mp hmem with ⟨q, hq, hkey⟩
          have h4 := (spec_accepted_mem new _ q hq).2.2
          simp only [quoteKey] at hkey
          exact h4 (hkey ▸ List.mem_cons_self _ _)
        · exact ih _

/-- The normalized key is empty exactly when the trimmed text is empty:
lower-casing never changes the length. -/
theorem normText_eq_empty (s : String) : normText s = "" ↔ pyStrip s = "" := by
  constructor
  · intro h
    have h2 : (pyStrip s).data.map Char.toLower = [] := by
      have h3 := congrArg String.data h
      simpa [normText, pyLower] using h3
    exact String.ext (List.map_eq_nil_iff.mp h2)
  · intro h
    simp [normText, h, pyLower]

/-- The set of keys of the accepted records is the set of non-empty keys
of `new` that are absent from the initial lookup set. -/
theorem spec_accepted_key_toFinset (new : List Quote) :
    ∀ seen, ((spec_accepted seen new).map quoteKey).toFinset =
      (new.map quoteKey).toFinset.filter (fun k => k ≠ "" ∧ k ∉ seen) := by
  induction new with
  | nil => intro seen; simp [spec_accepted]
  | cons p new ih =>
    intro seen
    by_cases h1 : pyStrip p.text = ""
    · have hk : quoteKey p = "" := by
        simp [quoteKey, (normText_eq_empty p.text).mpr h1]
      simp only [spec_accepted, h1, ite_true, List.map_cons, List.toFinset_cons,
        Finset.filter_insert, hk]
      rw [ih seen]
      simp
    · have hk : quoteKey p ≠ "" := by
        simp only [quoteKey]
        exact fun hc => h1 ((normText_eq_empty p.text).mp hc)
      by_cases h2 : normText p.text ∈ seen
      · have hk2 : quoteKey p ∈ seen := h2
        simp only [spec_accepted, h1, h2, ite_true, ite_false, List.map_cons,
          List.toFinset_cons, Finset.filter_insert]
        rw [ih seen]
        simp [hk2]
      · have hk2 : quoteKey p ∉ seen := h2
        simp only [spec_accepted, h1, h2, ite_false, List.map_cons,
          List.toFinset_cons, Finset.filter_insert]
        rw [ih (normText p.text :: seen)]
        simp only [hk, hk2, not_false_iff, and_true, ne_eq, if_pos]
        ext x
        simp only [Finset.mem_insert, Finset.mem_filter, List.mem_cons]
        by_cases hx : x = quoteKey p
        · simp [hx]
        · have hx2 : x = normText p.text ↔ False := by
            simp only [iff_false]
            intro hc
            exact hx (by simp [quoteKey, hc])
          simp [hx, hx2]

/-- When every record of `new` is empty after trimming or already has its
key in the lookup set, nothing is accepted. -/
theorem spec_accepted_eq_nil (new : List Quote) :
    ∀ seen, (∀ q ∈ new, pyStrip q.text = "" ∨ normText q.text ∈ seen) →
      spec_accepted seen new = [] := by
  induction new with
  | nil => intro seen _; simp [spec_accepted]
  | cons p new ih =>
    intro seen h
    have hrest : ∀ q ∈ new, pyStrip q.text = "" ∨ normText q.text ∈ seen :=
      fun q hq => h q (List.mem_cons_of_mem _ hq)
    rcases h p (List.mem_cons_self _ _) with h1 | h2
    · simp only [spec_accepted, h1, ite_true]
      exact ih seen hrest
    · by_cases h1 : pyStrip p.text = ""
      · simp only [spec_accepted, h1, ite_true]
        exact ih seen hrest
      · simp only [spec_accepted, h1, h2, ite_true, ite_false]
        exact ih seen hrest

/-- Every record of `new` with non-empty trimmed text ends with its key in
the lookup set or among the accepted keys. -/
theorem spec_accepted_covers (new : List Quote) :
    ∀ seen q, q ∈ new → pyStrip q.text ≠ "" →
      normText q.text ∈ seen ∨
        normText q.text ∈ (spec_accepted seen new).map quoteKey := by
  induction new with
  | nil => intro seen q h; simp at h
  | cons p new ih =>
    intro seen q hq hne
    rcases List.mem_cons.mp hq with rfl | hq2
    · by_cases h2 : normText q.text ∈ seen
      · exact .inl h2
      · right
        simp [spec_accepted, hne, h2, quoteKey]
    · by_cases h1 : pyStrip p.text = ""
      · simpa [spec_accepted, h1] using ih seen q hq2 hne
      · by_cases h2 : normText p.text ∈ seen
        · simpa [spec_accepted, h1, h2] using ih seen q hq2 hne
        · rcases ih (normText p.text :: seen) q hq2 hne with h | h
          · rcases List.mem_cons.mp h with heq | hmem
            · right
              simp [spec_accepted, h1, h2, quoteKey, heq]
            · exact .inl hmem
          · right
            simp only [spec_accepted, h1, h2, ite_false, List.map_cons, List.mem_cons]
            exact .inr h

/-- Claim C1 (amended): the merged list is never longer than the two
inputs together, its length is `existing` plus the reported
`added_count`, and `added_count` is the number of DISTINCT normalized
(trimmed, case-folded) texts among `incoming` that are non-empty and
absent from `existing`'s normalized-text set — a duplicate inside
`incoming` is appended only once. -/
theorem c1_merge_length_count (existing incoming : List Quote) :
    (merge_quotes existing incoming).1.length ≤ existing.length + incoming.length ∧
    (merge_quotes existing incoming).1.length =
      existing.length + (merge_quotes existing incoming).2 ∧
    (merge_quotes existing incoming).2 =
      ((incoming.map quoteKey).toFinset.filter
        (fun k => k ≠ "" ∧ k ∉ existing.map quoteKey)).card := by
  refine ⟨?_, ?_, ?_⟩
  · rw [merge_quotes_eq]
    have h := (spec_accepted_sublist incoming (existing.map quoteKey)).length_le
    simp only [List.length_append]
    omega
  · rw [merge_quotes_eq]
    simp
  · rw [merge_quotes_eq]
    show (spec_accepted (existing.map quoteKey) incoming).length = _
    rw [← spec_accepted_key_toFinset,
      List.toFinset_card_of_nodup (spec_accepted_key_nodup incoming _),
      List.length_map]

/-- Claim C1 as stated is false: with `existing = []` and an `incoming`
holding the same text twice, the merged length is `1` and the reported
count is `1`, while the claim's per-record count is `2`. -/
theorem c1_counterexample :
    (merge_quotes []
      [⟨"A", "Sun Tzu", "manual", ["war"]⟩,
       ⟨"A", "Sun Tzu", "manual", ["war"]⟩]).1.length = 1 ∧
    (merge_quotes []
      [⟨"A", "Sun Tzu", "manual", ["war"]⟩,
       ⟨"A", "Sun Tzu", "manual", ["war"]⟩]).2 = 1 ∧
    claimNewCount []
      [⟨"A", "Sun Tzu", "manual", ["war"]⟩,
       ⟨"A", "Sun Tzu", "manual", ["war"]⟩] = 2 ∧
    (1 : Nat) ≠ ([] : List Quote).length + 2 := by
  refine ⟨by decide, by decide, by decide, by decide⟩

/-- Claim C2: merging preserves the invariant that no two records of the
collection share a normalized (trimmed, case-folded) text, and the
normalization identifies texts differing only in case or in
leading/trailing whitespace, such as `"Hello"` and `"  hello  "`. -/
theorem c2_merge_preserves_nodup :
    (∀ existing incoming : List Quote, (existing.map quoteKey).Nodup →
      ((merge_quotes existing incoming).1.map quoteKey).Nodup) ∧
    quoteKey ⟨"Hello", "a", "s", []⟩ = quoteKey ⟨"  hello  ", "b", "s", []⟩ := by
  constructor
  · intro existing incoming h
    rw [merge_quotes_eq]
    show ((existing ++ _).map quoteKey).Nodup
    rw [List.map_append, List.nodup_append]
    refine ⟨h, spec_accepted_key_nodup incoming _, ?_⟩
    intro k hk1 hk2
    rcases List.mem_map.mp hk2 with ⟨q, hq, rfl⟩
    exact (spec_accepted_mem incoming _ q hq).2.2 hk1
  · decide

/-- Claim C2 witness at a concrete input: merging `"  hello  "` into a
duplicate-free collection holding `"Hello"` keeps the keys duplicate-free
(the incoming record is recognized as a duplicate). -/
theorem c2_witness :
    ((merge_quotes [⟨"Hello", "a", "s", []⟩]
      [⟨"  hello  ", "b", "s", []⟩]).1.map quoteKey).Nodup :=
  c2_merge_preserves_nodup.1 [⟨"Hello", "a", "s", []⟩]
    [⟨"  hello  ", "b", "s", []⟩] (by decide)

/-- Claim C3: a second merge of the same `incoming` against the result of
the first changes nothing and reports zero additions. -/
theorem c3_merge_idempotent (existing incoming : List Quote) :
    merge_quotes (merge_quotes existing incoming).1 incoming =
      ((merge_quotes existing incoming).1, 0) := by
  rw [merge_quotes_eq existing incoming]
  show merge_quotes (existing ++ spec_accepted _ _) incoming = _
  rw [merge_quotes_eq]
  have hnil : spec_accepted
      ((existing ++ spec_accepted (existing.map quoteKey) incoming).map quoteKey)
      incoming = [] := by
    apply spec_accepted_eq_nil
    intro q hq
    by_cases hne : pyStrip q.text = ""
    · exact .inl hne
    · right
      rw [List.map_append, List.mem_append]
      rcases spec_accepted_covers incoming (existing.map quoteKey) q hq hne with h | h
      · exact .inl h
      · exact .inr h
  rw [hnil]
  simp

/-- Claim C4: the merged list starts with `existing` unchanged, what
follows it is exactly the accepted part of `incoming` described by the
spec's per-record rule (`spec_accepted`: skip on empty trimmed text, skip
when the normalized text is already in the growing lookup set, append
otherwise), that appended part keeps the input order of `incoming`
(sub-list), and the result depends on nothing but the two arguments. -/
theorem c4_merge_prefix_order (existing incoming : List Quote) :
    (merge_quotes existing incoming).1.take existing.length = existing ∧
    (merge_quotes existing incoming).1.drop existing.length =
      spec_accepted (existing.map quoteKey) incoming ∧
    ((merge_quotes existing incoming).1.drop existing.length).Sublist incoming ∧
    (∀ existing2 incoming2, existing = existing2 → incoming = incoming2 →
      merge_quotes existing incoming = merge_quotes existing2 incoming2) := by
  refine ⟨?_, ?_, ?_, ?_⟩
  · rw [merge_quotes_eq]
    exact List.take_left existing _
  · rw [merge_quotes_eq]
    exact List.drop_left existing _
  · rw [merge_quotes_eq]
    show ((existing ++ _).drop existing.length).Sublist incoming
    rw [List.drop_left]
    exact spec_accepted_sublist incoming _
  · intro existing2 incoming2 h1 h2
    rw [h1, h2]

/-- Claim C4 witness at a concrete input: the prefix property and the
purity property instantiated on singleton lists. -/
theorem c4_witness :
    (merge_quotes [⟨"A", "x", "s", []⟩] [⟨"B", "y", "s", []⟩]).1.take 1 =
      [⟨"A", "x", "s", []⟩] ∧
    merge_quotes [⟨"A", "x", "s", []⟩] [⟨"B", "y", "s", []⟩] =
      merge_quotes [⟨"A", "x", "s", []⟩] [⟨"B", "y", "s", []⟩] :=
  ⟨(c4_merge_prefix_order [⟨"A", "x", "s", []⟩] [⟨"B", "y", "s", []⟩]).1,
   (c4_merge_prefix_order [⟨"A", "x", "s", []⟩] [⟨"B", "y", "s", []⟩]).2.2.2
     [⟨"A", "x", "s", []⟩] [⟨"B", "y", "s", []⟩] rfl rfl⟩

/-- The conversion loop body leaves records with a tags field unchanged
and gives records without one the singleton list of the containing key. -/
theorem tagIfMissing_eq (tag : String) (q : LQuote) :
    tagIfMissing tag q = { q with tags? := some (q.tags?.getD [tag]) } := by
  cases q with
  | mk text author tags? => cases tags? <;> rfl

/-- The nested-object conversion flattens the mapped record lists in
order. -/
theorem convertNested_eq (entries : List (String × List LQuote)) :
    convertNested entries =
      (entries.map (fun p => p.2.map (tagIfMissing p.1))).flatten := by
  induction entries with
  | nil => rfl
  | cons p rest ih =>
    cases p
    simp [convertNested, ih]

/-- Claim C6: loading a legacy nested object yields the flat
concatenation, in order, of the record lists of its entries, where each
record is passed through `tagIfMissing`; `tagIfMissing` leaves a record
with a tags field unchanged and gives a record without one `[key]` as
tags; in particular the persisted object
`{"war": [{"text":"X","author":"Y"}]}` loads as that one record carrying
`tags == ["war"]`. -/
theorem c6_legacy_load_conversion :
    (∀ entries, load_existing_quotes (.nested entries) =
      (entries.map (fun p => p.2.map (tagIfMissing p.1))).flatten) ∧
    (∀ tag q, tagIfMissing tag q = { q with tags? := some (q.tags?.getD [tag]) }) ∧
    load_existing_quotes (.nested [("war", [⟨"X", "Y", none⟩])]) =
      [⟨"X", "Y", some ["war"]⟩] := by
  refine ⟨fun entries => convertNested_eq entries,
    fun tag q => tagIfMissing_eq tag q, by decide⟩

/-- A character surviving a run collapse is a hyphen or a non-run
character of the input. -/
theorem collapseAux_chars (l : List Char) :
    ∀ (b : Bool) (c : Char), c ∈ collapseAux b l →
      c = '-' ∨ (c ∈ l ∧ isSpaceOrHyphen c = false) := by
  induction l with
  | nil => intro b c h; simp [collapseAux] at h
  | cons d rest ih =>
    intro b c h
    by_cases hd : isSpaceOrHyphen d = true
    · cases b with
      | true =>
        simp only [collapseAux, hd, ite_true] at h
        rcases ih true c h with h1 | ⟨h1, h2⟩
        · exact .inl h1
        · exact .inr ⟨List.mem_cons_of_mem _ h1, h2⟩
      | false =>
        simp only [collapseAux, hd, Bool.false_eq_true, ite_true, ite_false,
          List.mem_cons] at h
        rcases h with rfl | h
        · exact .inl rfl
        · rcases ih true c h with h1 | ⟨h1, h2⟩
          · exact .inl h1
          · exact .inr ⟨List.mem_cons_of_mem _ h1, h2⟩
    · have hd2 : isSpaceOrHyphen d = false := by
        exact Bool.not_eq_true _ ▸ eq_false_of_ne_true hd
      simp only [collapseAux, hd2, Bool.false_eq_true, ite_false, List.mem_cons] at h
      rcases h with rfl | h
      · exact .inr ⟨List.mem_cons_self _ _, hd2⟩
      · rcases ih false c h with h1 | ⟨h1, h2⟩
        · exact .inl h1
        · exact .inr ⟨List.mem_cons_of_mem _ h1, h2⟩

/-- Stripping end hyphens only removes characters. -/
theorem stripHyphenEnds_subset (l : List Char) :
    ∀ c, c ∈ stripHyphenEnds l → c ∈ l := by
  intro c h
  simp only [stripHyphenEnds, List.mem_reverse] at h
  have h2 := (List.dropWhile_sublist (l := (l.dropWhile (· == '-')).reverse)
    (· == '-')).mem h
  rw [List.mem_reverse] at h2
  exact (List.dropWhile_sublist (· == '-')).mem h2

/-- The head surviving a dropWhile fails the dropped predicate. -/
theorem head?_dropWhile_ne (p : Char → Bool) (l : List Char) :
    ∀ c, (l.dropWhile p).head? = some c → p c = false := by
  induction l with
  | nil => intro c h; simp at h
  | cons d rest ih =>
    intro c h
    by_cases hd : p d = true
    · rw [List.dropWhile_cons, if_pos hd] at h
      exact ih c h
    · have hd2 : p d = false := eq_false_of_ne_true hd
      rw [List.dropWhile_cons, if_neg (by simp [hd2])] at h
      simp only [List.head?_cons, Option.some.injEq] at h
      exact h ▸ hd2

/-- The last character of a stripped list is not a hyphen. -/
theorem stripHyphenEnds_getLast? (l : List Char) :
    (stripHyphenEnds l).getLast? ≠ some '-' := by
  intro h
  rw [stripHyphenEnds, List.getLast?_reverse] at h
  have := head?_dropWhile_ne (· == '-') ((l.dropWhile (· == '-')).reverse) '-' h
  simp at this

/-- The first character of a stripped list is not a hyphen. -/
theorem stripHyphenEnds_head? (l : List Char) :
    (stripHyphenEnds l).head? ≠ some '-' := by
  intro h
  rw [stripHyphenEnds, List.head?_reverse] at h
  rcases hz : ((l.dropWhile (· == '-')).reverse.dropWhile (· == '-')) with _ | ⟨z, zs⟩
  · rw [hz] at h
    simp at h
  · rw [hz] at h
    have hsuf : (z :: zs) <:+ (l.dropWhile (· == '-')).reverse :=
      hz ▸ List.dropWhile_suffix (· == '-')
    rcases hsuf with ⟨t, ht⟩
    have hlast : ((l.dropWhile (· == '-')).reverse).getLast? = some '-' := by
      rw [← ht, List.getLast?_append_of_ne_nil _ (List.cons_ne_nil z zs)]
      exact h
    rw [List.getLast?_reverse] at hlast
    have h2 := head?_dropWhile_ne (· == '-') l '-' hlast
    simp at h2

/-- Claim C5 as stated is false: `slugify` DELETES the characters that are
neither word characters, whitespace nor hyphens instead of collapsing
every non-alphanumeric run to a hyphen.  On `"a!b"` the code yields
`"ab"` while the claim's transformation yields `"a-b"`; and a leading
underscore — a non-alphanumeric punctuation character — survives:
`slugify "_a" = "_a"`. -/
theorem c5_counterexample :
    slugify "a!b" = "ab" ∧ slugifyClaim "a!b" = "a-b" ∧
    slugify "a!b" ≠ slugifyClaim "a!b" ∧ slugify "_a" = "_a" := by
  refine ⟨by decide, by decide, by decide, by decide⟩

/-- Claim C5 (amended): the slug is the author string lowercased, with the
characters that are not word characters (letters, digits, underscore),
whitespace or hyphens removed, every run of whitespace/hyphen characters
collapsed to a single hyphen, and leading/trailing hyphens stripped.
`"Carl von Clausewitz"` maps to `"carl-von-clausewitz"` and
`"Audie Murphy!!"` to `"audie-murphy"`; every character of a slug is a
word character or a hyphen, and neither end is a hyphen — so no leading
or trailing hyphen, whitespace or non-word punctuation ever survives (a
leading or trailing underscore can, `_` being a word character). -/
theorem c5_slugify_amended :
    slugify "Carl von Clausewitz" = "carl-von-clausewitz" ∧
    slugify "Audie Murphy!!" = "audie-murphy" ∧
    (∀ s : String, ∀ c ∈ (slugify s).data, isWordChar c = true ∨ c = '-') ∧
    (∀ s : String, (slugify s).data.head? ≠ some '-') ∧
    (∀ s : String, (slugify s).data.getLast? ≠ some '-') := by
  refine ⟨by decide, by decide, ?_, ?_, ?_⟩
  · intro s c hc
    have h1 : c ∈ collapseAux false ((s.data.map Char.toLower).filter
        (fun c => isWordChar c || c.isWhitespace || c == '-')) :=
      stripHyphenEnds_subset _ c hc
    rcases collapseAux_chars _ false c h1 with h | ⟨hmem, hrun⟩
    · exact .inr h
    · left
      have hkeep := (List.mem_filter.mp hmem).2
      rw [isSpaceOrHyphen, Bool.or_eq_false_iff] at hrun
      simp only [hrun.1, hrun.2, Bool.or_false] at hkeep
      exact hkeep
  · intro s
    exact stripHyphenEnds_head? _
  · intro s
    exact stripHyphenEnds_getLast? _

/-- Claim C5 witness at a concrete input: the general character and end
properties instantiated on `"Audie Murphy!!"`. -/
theorem c5_witness :
    (isWordChar 'a' = true ∨ 'a' = '-') ∧
    (slugify "Audie Murphy!!").data.head? ≠ some '-' ∧
    (slugify "Audie Murphy!!").data.getLast? ≠ some '-' :=
  ⟨c5_slugify_amended.2.2.1 "Audie Murphy!!" 'a' (by decide),
   c5_slugify_amended.2.2.2.1 "Audie Murphy!!",
   c5_slugify_amended.2.2.2.2 "Audie Murphy!!"⟩

/-- Inserting into the sort keeps the elements, as a permutation. -/
theorem insertByKey_perm (p : String × Nat) (l : List (String × Nat)) :
    (insertByKey p l).Perm (p :: l) := by
  induction l with
  | nil => exact List.Perm.refl _
  | cons q rest ih =>
    by_cases h : p.1.data < q.1.data
    · simp only [insertByKey, h, ite_true]
      exact List.Perm.refl _
    · simp only [insertByKey, h, ite_false]
      exact (ih.cons q).trans (List.Perm.swap p q rest)

/-- The insertion sort permutes its input. -/
theorem sortByKey_perm (l : List (String × Nat)) : (sortByKey l).Perm l := by
  induction l with
  | nil => exact List.Perm.refl _
  | cons p rest ih => exact (insertByKey_perm p (sortByKey rest)).trans (ih.cons p)

/-- Inserting into a list sorted by key keeps it sorted by key (weak
order: no later key is smaller). -/
theorem insertByKey_sorted (p : String × Nat) (l : List (String × Nat))
    (h : l.Pairwise (fun a b => ¬ b.1.data < a.1.data)) :
    (insertByKey p l).Pairwise (fun a b => ¬ b.1.data < a.1.data) := by
  induction l with
  | nil => simp [insertByKey]
  | cons q rest ih =>
    rw [List.pairwise_cons] at h
    by_cases hlt : p.1.data < q.1.data
    · simp only [insertByKey, hlt, ite_true]
      rw [List.pairwise_cons]
      constructor
      · intro a ha
        rcases List.mem_cons.mp ha with rfl | ha
        · exact fun hc => absurd hlt (asymm hc)
        · have h2 := h.1 a ha
          intro hc
          exact h2 (lt_trans hc hlt)
      · rw [List.pairwise_cons]
        exact h
    · simp only [insertByKey, hlt, ite_false]
      rw [List.pairwise_cons]
      constructor
      · intro a ha
        have := (insertByKey_perm p rest).mem_iff.mp ha
        rcases List.mem_cons.mp this with rfl | ha2
        · exact hlt
        · exact h.1 a ha2
      · exact ih h.2

/-- The insertion sort sorts by key (weak order). -/
theorem sortByKey_sorted (l : List (String × Nat)) :
    (sortByKey l).Pairwise (fun a b => ¬ b.1.data < a.1.data) := by
  induction l with
  | nil => simp [sortByKey]
  | cons p rest ih => exact insertByKey_sorted p (sortByKey rest) ih

/-- A directory whose every file is unreadable contributes no statistics. -/
theorem loadStatsLoop_all_none (files : List (Option TagFileData)) :
    ∀ stats, (∀ f ∈ files, f = none) → loadStatsLoop stats files = stats := by
  induction files with
  | nil => intro stats _; rfl
  | cons f rest ih =>
    intro stats h
    have hf := h f (List.mem_cons_self _ _)
    subst hf
    exact ih stats (fun g hg => h g (List.mem_cons_of_mem _ hg))

/-- Claim C8 as stated is false in one respect: with the tags directory
missing the run is indeed not fatal and a document is still produced, but
that document contains NO `tags` field at all — the field is skipped,
not emitted with an empty options list. -/
theorem c8_counterexample :
    (create_options_yml (load_tag_stats none)).filter
      (fun f => f.keyname == "tags") = [] ∧
    create_options_yml (load_tag_stats none) = [aboutField] := by
  refine ⟨by decide, by decide⟩

/-- Claim C8 (amended): when the tags directory is missing — or every
partition file in it is unreadable — the statistics come back empty and
the generator still produces the configuration document, consisting of
the about field only: the tags field is omitted entirely instead of being
emitted with an empty options list; the condition is not fatal. -/
theorem c8_missing_dir_graceful :
    load_tag_stats none = [] ∧
    create_options_yml (load_tag_stats none) = [aboutField] ∧
    (∀ files : List (Option TagFileData), (∀ f ∈ files, f = none) →
      load_tag_stats (some files) = [] ∧
      create_options_yml (load_tag_stats (some files)) = [aboutField]) := by
  refine ⟨rfl, by decide, ?_⟩
  intro files h
  have hstats : load_tag_stats (some files) = [] := loadStatsLoop_all_none files [] h
  rw [hstats]
  exact ⟨rfl, by decide⟩

/-- Claim C8 witness at a concrete input: a directory of two unreadable
files yields empty statistics and the about-only document. -/
theorem c8_witness :
    load_tag_stats (some [none, none]) = [] ∧
    create_options_yml (load_tag_stats (some [none, none])) = [aboutField] :=
  c8_missing_dir_graceful.2.2 [none, none] (by decide)

/-- Claim C9: for a non-empty tag-statistics mapping (distinct tag keys),
the generated document is the about field followed by one tags select
field whose options are those of `tagOptions`; that options list has
exactly one option per tag, is ordered alphabetically (lexicographically
by character code) by the raw tag key stored as the option value, and the
option derived from the pair `(tag, count)` carries the label
`capitalize(tag) ++ ": " ++ count` with the raw tag key as its value. -/
theorem c9_tags_field (stats : List (String × Nat))
    (hne : stats ≠ []) (hkeys : (stats.map Prod.fst).Nodup) :
    create_options_yml stats =
      [aboutField,
       { keyname := "tags", name := "Tags", field_type := "select",
         options := tagOptions stats }] ∧
    (tagOptions stats).length = stats.length ∧
    (tagOptions stats).Pairwise (fun a b => a.2.data < b.2.data) ∧
    (∀ p ∈ stats,
      (pyCapitalize p.1 ++ ": " ++ toString p.2, p.1) ∈ tagOptions stats) := by
  have hempty : stats.isEmpty = false := by
    cases stats with
    | nil => exact absurd rfl hne
    | cons p rest => rfl
  refine ⟨?_, ?_, ?_, ?_⟩
  · rw [create_options_yml, hempty]
    rfl
  · rw [tagOptions, List.length_map]
    exact (sortByKey_perm stats).length_eq
  · have hnodup : ((sortByKey stats).map Prod.fst).Nodup :=
      (((sortByKey_perm stats).map Prod.fst).nodup_iff).mpr hkeys
    have hne2 : (sortByKey stats).Pairwise (fun a b => a.1 ≠ b.1) :=
      List.pairwise_map.mp hnodup
    have hsorted := sortByKey_sorted stats
    have hstrict : (sortByKey stats).Pairwise
        (fun a b : String × Nat => a.1.data < b.1.data) := by
      refine (hsorted.and hne2).imp ?_
      rintro a b ⟨h1, h2⟩
      have h3 : a.1.data ≠ b.1.data := fun hc => h2 (String.ext hc)
      exact lt_of_le_of_ne (not_lt.mp h1) h3
    rw [tagOptions, List.pairwise_map]
    exact hstrict
  · intro p hp
    have hp2 : p ∈ sortByKey stats := (sortByKey_perm stats).mem_iff.mpr hp
    rw [tagOptions]
    exact List.mem_map_of_mem _ hp2

/-- Claim C9 witness at a concrete input: two tags produce the about field
plus the tags field with alphabetically ordered labelled options. -/
theorem c9_witness :
    create_options_yml [("war", 2), ("peace", 1)] =
      [aboutField,
       { keyname := "tags", name := "Tags", field_type := "select",
         options := tagOptions [("war", 2), ("peace", 1)] }] ∧
    ("War: 2", "war") ∈ tagOptions [("war", 2), ("peace", 1)] :=
  ⟨(c9_tags_field [("war", 2), ("peace", 1)] (by decide) (by decide)).1,
   (c9_tags_field [("war", 2), ("peace", 1)] (by decide) (by decide)).2.2.2
     ("war", 2) (by decide)⟩

/-- Building the text-key set succeeds when every record has a text key. -/
theorem textKeys_isSome (l : List DQuote) (h : ∀ q ∈ l, q.text?.isSome) :
    (textKeys l).isSome := by
  induction l with
  | nil => rfl
  | cons q rest ih =>
    have hq := h q (List.mem_cons_self _ _)
    rcases hqt : q.text? with _ | s
    · rw [hqt] at hq
      simp at hq
    · rw [textKeys, hqt]
      have h2 := ih (fun r hr => h r (List.mem_cons_of_mem _ hr))
      rcases hk : textKeys rest with _ | ks
      · rw [hk] at h2
        simp at h2
      · simp

/-- The dict-record merge loop succeeds when every incoming record has a
text key. -/
theorem mergeLoopD_isSome (new : List DQuote) :
    ∀ seen merged added, (∀ q ∈ new, q.text?.isSome) →
      (mergeLoopD seen merged added new).isSome := by
  induction new with
  | nil => intro seen merged added _; rfl
  | cons q rest ih =>
    intro seen merged added h
    have hq := h q (List.mem_cons_self _ _)
    have hrest : ∀ r ∈ rest, r.text?.isSome :=
      fun r hr => h r (List.mem_cons_of_mem _ hr)
    rcases hqt : q.text? with _ | s
    · rw [hqt] at hq
      simp at hq
    · simp only [mergeLoopD, hqt]
      by_cases h1 : pyStrip s = ""
      · rw [if_pos h1]
        exact ih seen merged added hrest
      · rw [if_neg h1]
        by_cases h2 : normText s ∈ seen
        · rw [if_pos h2]
          exact ih seen merged added hrest
        · rw [if_neg h2]
          exact ih _ _ _ hrest

/-- Updating one dict key changes exactly that key's lookup. -/
theorem lookupA_putA {α : Type} (db : List (String × α)) (key : String) (v : α) :
    ∀ k, lookupA (putA db key v) k = if key = k then some v else lookupA db k := by
  induction db with
  | nil =>
    intro k
    by_cases h : key = k <;> simp [putA, lookupA, h]
  | cons p rest ih =>
    intro k
    rcases p with ⟨pk, pv⟩
    by_cases h1 : pk = key
    · subst h1
      by_cases h2 : pk = k
      · subst h2
        simp [putA, lookupA]
      · simp [putA, lookupA, h2]
    · by_cases h2 : pk = k
      · subst h2
        have h5 : key ≠ pk := fun hc => h1 hc.symm
        simp [putA, lookupA, h1, h5]
      · simp [putA, lookupA, h1, h2, ih k]

/-- The tag-loop body over dict records succeeds and preserves the
all-records-have-text invariant of the buckets. -/
theorem addDQuoteToTag_isSome (db : List (String × List DQuote)) (q : DQuote)
    (tag : String) (hdb : ∀ t r, r ∈ getBucketD db t → r.text?.isSome)
    (hq : q.text?.isSome) :
    ∃ db2, addDQuoteToTag db q tag = some db2 ∧
      (∀ t r, r ∈ getBucketD db2 t → r.text?.isSome) := by
  rcases hqt : q.text? with _ | s
  · rw [hqt] at hq
    simp at hq
  · have hkeys : (textKeys (getBucketD db tag)).isSome :=
      textKeys_isSome _ (fun r hr => hdb tag r hr)
    rcases hk : textKeys (getBucketD db tag) with _ | keys
    · rw [hk] at hkeys
      simp at hkeys
    · simp only [addDQuoteToTag, hk, hqt]
      by_cases h2 : normText s ∈ keys
      · rw [if_pos h2]
        exact ⟨db, rfl, hdb⟩
      · rw [if_neg h2]
        refine ⟨_, rfl, ?_⟩
        intro t r hr
        rw [getBucketD, lookupA_putA] at hr
        by_cases h3 : tag = t
        · rw [if_pos h3, Option.getD_some, List.mem_append] at hr
          rcases hr with hr | hr
          · exact hdb tag r hr
          · rw [List.mem_singleton] at hr
            subst hr
            rw [hqt]
            rfl
        · rw [if_neg h3] at hr
          exact hdb t r hr

/-- The tag loop over dict records succeeds under the same invariant. -/
theorem addDQuoteTags_isSome (tags : List String) :
    ∀ (db : List (String × List DQuote)) (q : DQuote),
      (∀ t r, r ∈ getBucketD db t → r.text?.isSome) → q.text?.isSome →
      ∃ db2, addDQuoteTags q db tags = some db2 ∧
        (∀ t r, r ∈ getBucketD db2 t → r.text?.isSome) := by
  induction tags with
  | nil => intro db q hdb _; exact ⟨db, rfl, hdb⟩
  | cons tag rest ih =>
    intro db q hdb hq
    obtain ⟨db2, h1, h2⟩ := addDQuoteToTag_isSome db q tag hdb hq
    obtain ⟨db3, h3, h4⟩ := ih db2 q h2 hq
    refine ⟨db3, ?_, h4⟩
    rw [addDQuoteTags, h1]
    exact h3

/-- The outer tag-partition loop over dict records succeeds when every
record has a text key. -/
theorem organizeTagsLoopD_isSome (qs : List DQuote) :
    ∀ db, (∀ t r, r ∈ getBucketD db t → r.text?.isSome) →
      (∀ q ∈ qs, q.text?.isSome) → (organizeTagsLoopD db qs).isSome := by
  induction qs with
  | nil => intro db _ _; rfl
  | cons q qs ih =>
    intro db hdb hq
    obtain ⟨db2, h1, h2⟩ := addDQuoteTags_isSome (q.tags?.getD []) db q hdb
      (hq q (List.mem_cons_self _ _))
    rw [organizeTagsLoopD, h1]
    exact ih db2 h2 (fun r hr => hq r (List.mem_cons_of_mem _ hr))

/-- The author-loop body over dict records succeeds and preserves the
all-records-have-text invariant of the buckets. -/
theorem addDQuoteAuthor_isSome (db : List (String × List DQuote)) (q : DQuote)
    (hdb : ∀ t r, r ∈ getBucketD db t → r.text?.isSome) (hq : q.text?.isSome) :
    ∃ db2, addDQuoteAuthor db q = some db2 ∧
      (∀ t r, r ∈ getBucketD db2 t → r.text?.isSome) := by
  rcases hqt : q.text? with _ | s
  · rw [hqt] at hq
    simp at hq
  · have hkeys : (textKeys (getBucketD db (q.author?.getD "Unknown"))).isSome :=
      textKeys_isSome _ (fun r hr => hdb _ r hr)
    rcases hk : textKeys (getBucketD db (q.author?.getD "Unknown")) with _ | keys
    · rw [hk] at hkeys
      simp at hkeys
    · simp only [addDQuoteAuthor, hk, hqt]
      by_cases h2 : normText s ∈ keys
      · rw [if_pos h2]
        exact ⟨db, rfl, hdb⟩
      · rw [if_neg h2]
        refine ⟨_, rfl, ?_⟩
        intro t r hr
        rw [getBucketD, lookupA_putA] at hr
        by_cases h3 : q.author?.getD "Unknown" = t
        · rw [if_pos h3, Option.getD_some, List.mem_append] at hr
          rcases hr with hr | hr
          · exact hdb _ r hr
          · rw [List.mem_singleton] at hr
            subst hr
            rw [hqt]
            rfl
        · rw [if_neg h3] at hr
          exact hdb t r hr

/-- The outer author-partition loop over dict records succeeds when every
record has a text key. -/
theorem organizeAuthorsLoopD_isSome (qs : List DQuote) :
    ∀ db, (∀ t r, r ∈ getBucketD db t → r.text?.isSome) →
      (∀ q ∈ qs, q.text?.isSome) → (organizeAuthorsLoopD db qs).isSome := by
  induction qs with
  | nil => intro db _ _; rfl
  | cons q qs ih =>
    intro db hdb hq
    obtain ⟨db2, h1, h2⟩ := addDQuoteAuthor_isSome db q hdb
      (hq q (List.mem_cons_self _ _))
    rw [organizeAuthorsLoopD, h1]
    exact ih db2 h2 (fun r hr => hq r (List.mem_cons_of_mem _ hr))

/-- Claim C10: `merge_quotes`, `organize_by_tags` and
`organize_by_authors` are total when every record carries a `"text"` key
with a string value (they return a result), and each of them raises a
`KeyError` (modelled by `none`) on some input holding a record without a
`"text"` key: `merge_quotes` already when building the lookup set, the
tag partitioner as soon as such a record carries a tag, the author
partitioner on its bucket dedup check. -/
theorem c10_text_key_required :
    (∀ existing new : List DQuote, (∀ q ∈ existing, q.text?.isSome) →
      (∀ q ∈ new, q.text?.isSome) → (merge_quotesD existing new).isSome) ∧
    merge_quotesD [⟨none, some "Sun Tzu", none⟩] [] = none ∧
    merge_quotesD [] [⟨none, some "Sun Tzu", none⟩] = none ∧
    (∀ qs : List DQuote, (∀ q ∈ qs, q.text?.isSome) →
      (organize_by_tagsD qs).isSome) ∧
    organize_by_tagsD [⟨none, some "Sun Tzu", some ["war"]⟩] = none ∧
    (∀ qs : List DQuote, (∀ q ∈ qs, q.text?.isSome) →
      (organize_by_authorsD qs).isSome) ∧
    organize_by_authorsD [⟨none, some "Sun Tzu", none⟩] = none := by
  refine ⟨?_, by decide, by decide, ?_, by decide, ?_, by decide⟩
  · intro existing new hex hnew
    have hkeys := textKeys_isSome existing hex
    rcases hk : textKeys existing with _ | keys
    · rw [hk] at hkeys
      simp at hkeys
    · rw [merge_quotesD, hk]
      exact mergeLoopD_isSome new keys existing 0 hnew
  · intro qs hqs
    exact organizeTagsLoopD_isSome qs []
      (by intro t r hr; simp [getBucketD, lookupA] at hr) hqs
  · intro qs hqs
    exact organizeAuthorsLoopD_isSome qs []
      (by intro t r hr; simp [getBucketD, lookupA] at hr) hqs

/-- Claim C10 witness at concrete inputs: with the text key present
everywhere, all three functions return a result. -/
theorem c10_witness :
    (merge_quotesD [⟨some "A", none, none⟩] [⟨some "B", none, none⟩]).isSome ∧
    (organize_by_tagsD [⟨some "A", none, some ["war"]⟩]).isSome ∧
    (organize_by_authorsD [⟨some "A", some "Sun Tzu", none⟩]).isSome :=
  ⟨c10_text_key_required.1 [⟨some "A", none, none⟩] [⟨some "B", none, none⟩]
     (by decide) (by decide),
   c10_text_key_required.2.2.2.1 [⟨some "A", none, some ["war"]⟩] (by decide),
   c10_text_key_required.2.2.2.2.2.1 [⟨some "A", some "Sun Tzu", none⟩] (by decide)⟩

/-- One step of the tag loop either leaves a bucket unchanged or appends
the current quote, and it appends only to the processed tag's bucket and
only when the quote's key is not yet there. -/
theorem getBucket_addQuoteToTag (db : List (String × List Quote)) (q : Quote)
    (tag t : String) :
    getBucket (addQuoteToTag db q tag) t = getBucket db t ∨
      (t = tag ∧ quoteKey q ∉ (getBucket db tag).map quoteKey ∧
        getBucket (addQuoteToTag db q tag) t = getBucket db t ++ [q]) := by
  rw [addQuoteToTag]
  by_cases hdup : quoteKey q ∈ (getBucket db tag).map quoteKey
  · rw [if_pos hdup]
    exact .inl rfl
  · rw [if_neg hdup]
    by_cases ht : t = tag
    · subst ht
      right
      refine ⟨rfl, hdup, ?_⟩
      rw [getBucket, lookupA_putA, if_pos rfl, Option.getD_some]
    · left
      rw [getBucket, lookupA_putA, if_neg (fun hc => ht hc.symm)]
      rfl

/-- Bucket contents only grow along the tag loop body. -/
theorem getBucket_addQuoteToTag_mono (db : List (String × List Quote))
    (q : Quote) (tag t : String) (r : Quote) (h : r ∈ getBucket db t) :
    r ∈ getBucket (addQuoteToTag db q tag) t := by
  rcases getBucket_addQuoteToTag db q tag t with h2 | ⟨_, _, h2⟩
  · rw [h2]
    exact h
  · rw [h2]
    exact List.mem_append_left _ h

/-- A bucket member after the tag loop body was there before or is the
processed quote. -/
theorem getBucket_addQuoteToTag_provenance (db : List (String × List Quote))
    (q : Quote) (tag t : String) (r : Quote)
    (h : r ∈ getBucket (addQuoteToTag db q tag) t) :
    r ∈ getBucket db t ∨ r = q := by
  rcases getBucket_addQuoteToTag db q tag t with h2 | ⟨_, _, h2⟩
  · rw [h2] at h
    exact .inl h
  · rw [h2] at h
    rcases List.mem_append.mp h with h3 | h3
    · exact .inl h3
    · exact .inr (List.mem_singleton.mp h3)

/-- Bucket contents only grow along the whole tag list of one quote. -/
theorem getBucket_addQuoteTags_mono (tags : List String) :
    ∀ (db : List (String × List Quote)) (q : Quote) (t : String) (r : Quote),
      r ∈ getBucket db t → r ∈ getBucket (addQuoteTags q db tags) t := by
  induction tags with
  | nil => intro db q t r h; exact h
  | cons tag rest ih =>
    intro db q t r h
    exact ih _ q t r (getBucket_addQuoteToTag_mono db q tag t r h)

/-- A bucket member after one quote's tag list was there before or is
that quote. -/
theorem getBucket_addQuoteTags_provenance (tags : List String) :
    ∀ (db : List (String × List Quote)) (q : Quote) (t : String) (r : Quote),
      r ∈ getBucket (addQuoteTags q db tags) t → r ∈ getBucket db t ∨ r = q := by
  induction tags with
  | nil => intro db q t r h; exact .inl h
  | cons tag rest ih =>
    intro db q t r h
    rcases ih _ q t r h with h2 | h2
    · exact getBucket_addQuoteToTag_provenance db q tag t r h2
    · exact .inr h2

/-- Bucket contents only grow along the outer quote loop. -/
theorem getBucket_organizeLoop_mono (qs : List Quote) :
    ∀ (db : List (String × List Quote)) (t : String) (r : Quote),
      r ∈ getBucket db t → r ∈ getBucket (organizeLoop db qs) t := by
  induction qs with
  | nil => intro db t r h; exact h
  | cons q qs ih =>
    intro db t r h
    exact ih _ t r (getBucket_addQuoteTags_mono q.tags db q t r h)

/-- After the tag loop body, the quote's key occurs in the processed
tag's bucket. -/
theorem quoteKey_mem_addQuoteToTag (db : List (String × List Quote)) (q : Quote)
    (tag : String) :
    quoteKey q ∈ (getBucket (addQuoteToTag db q tag) tag).map quoteKey := by
  rw [addQuoteToTag]
  by_cases hdup : quoteKey q ∈ (getBucket db tag).map quoteKey
  · rw [if_pos hdup]
    exact hdup
  · rw [if_neg hdup]
    rw [getBucket, lookupA_putA, if_pos rfl, Option.getD_some, List.map_append]
    exact List.mem_append_right _ (by simp)

/-- Along one quote's tag list, every listed tag ends with the quote's
key in its bucket. -/
theorem quoteKey_mem_addQuoteTags (tags : List String) :
    ∀ (db : List (String × List Quote)) (q : Quote) (tag : String), tag ∈ tags →
      quoteKey q ∈ (getBucket (addQuoteTags q db tags) tag).map quoteKey := by
  induction tags with
  | nil => intro db q tag h; simp at h
  | cons tag0 rest ih =>
    intro db q tag h
    rcases List.mem_cons.mp h with rfl | h2
    · by_cases hrest : tag ∈ rest
      · exact ih _ q tag hrest
      · have h3 := quoteKey_mem_addQuoteToTag db q tag
        rcases List.mem_map.mp h3 with ⟨r, hr, hkey⟩
        have h4 := getBucket_addQuoteTags_mono rest (addQuoteToTag db q tag) q tag r hr
        exact hkey ▸ List.mem_map_of_mem quoteKey h4
    · exact ih _ q tag h2

/-- Claim C7 part: after the whole loop, every quote's key occurs in the
bucket of every tag the quote carries. -/
theorem quoteKey_mem_organizeLoop (qs : List Quote) :
    ∀ (db : List (String × List Quote)) (q : Quote) (tag : String),
      q ∈ qs → tag ∈ q.tags →
      quoteKey q ∈ (getBucket (organizeLoop db qs) tag).map quoteKey := by
  induction qs with
  | nil => intro db q tag h; simp at h
  | cons q0 rest ih =>
    intro db q tag hq htag
    rcases List.mem_cons.mp hq with rfl | hq2
    · by_cases hrest : q ∈ rest
      · exact ih _ q tag hrest htag
      · have h3 := quoteKey_mem_addQuoteTags q.tags db q tag htag
        rcases List.mem_map.mp h3 with ⟨r, hr, hkey⟩
        have h4 := getBucket_organizeLoop_mono rest (addQuoteTags q db q.tags) tag r hr
        exact hkey ▸ List.mem_map_of_mem quoteKey h4
    · exact ih _ q tag hq2 htag

/-- The tag loop body keeps every bucket free of duplicate keys. -/
theorem nodup_addQuoteToTag (db : List (String × List Quote)) (q : Quote)
    (tag : String) (h : ∀ t, ((getBucket db t).map quoteKey).Nodup) :
    ∀ t, ((getBucket (addQuoteToTag db q tag) t).map quoteKey).Nodup := by
  intro t
  rcases getBucket_addQuoteToTag db q tag t with h2 | ⟨ht, hdup, h2⟩
  · rw [h2]
    exact h t
  · rw [h2, List.map_append, List.nodup_append]
    subst ht
    refine ⟨h t, by simp, ?_⟩
    intro k hk1 hk2
    simp only [List.map_cons, List.map_nil, List.mem_singleton] at hk2
    subst hk2
    exact hdup hk1

/-- One quote's whole tag list keeps every bucket free of duplicate keys. -/
theorem nodup_addQuoteTags (tags : List String) :
    ∀ (db : List (String × List Quote)) (q : Quote),
      (∀ t, ((getBucket db t).map quoteKey).Nodup) →
      ∀ t, ((getBucket (addQuoteTags q db tags) t).map quoteKey).Nodup := by
  induction tags with
  | nil => intro db q h; exact h
  | cons tag rest ih =>
    intro db q h
    exact ih _ q (nodup_addQuoteToTag db q tag h)

/-- Claim C7 part: the whole loop keeps every bucket free of duplicate
keys (bucket-local dedup). -/
theorem nodup_organizeLoop (qs : List Quote) :
    ∀ db, (∀ t, ((getBucket db t).map quoteKey).Nodup) →
      ∀ t, ((getBucket (organizeLoop db qs) t).map quoteKey).Nodup := by
  induction qs with
  | nil => intro db h; exact h
  | cons q rest ih =>
    intro db h
    exact ih _ (nodup_addQuoteTags q.tags db q h)

/-- When the only bucket record that can share the quote's key is the
quote itself, processing its tag list puts the quote into every listed
tag's bucket, and that property of the buckets is preserved. -/
theorem addQuoteTags_self_mem (tags : List String) :
    ∀ (db : List (String × List Quote)) (q : Quote),
      (∀ t r, r ∈ getBucket db t → quoteKey r = quoteKey q → r = q) →
      (∀ t ∈ tags, q ∈ getBucket (addQuoteTags q db tags) t) ∧
      (∀ t r, r ∈ getBucket (addQuoteTags q db tags) t →
        quoteKey r = quoteKey q → r = q) := by
  induction tags with
  | nil =>
    intro db q hinv
    exact ⟨fun t ht => absurd ht (List.not_mem_nil t), hinv⟩
  | cons tag rest ih =>
    intro db q hinv
    have hinv2 : ∀ t r, r ∈ getBucket (addQuoteToTag db q tag) t →
        quoteKey r = quoteKey q → r = q := by
      intro t r hr hk
      rcases getBucket_addQuoteToTag_provenance db q tag t r hr with h2 | h2
      · exact hinv t r h2 hk
      · exact h2
    have hq_in : q ∈ getBucket (addQuoteToTag db q tag) tag := by
      rw [addQuoteToTag]
      by_cases hdup : quoteKey q ∈ (getBucket db tag).map quoteKey
      · rw [if_pos hdup]
        rcases List.mem_map.mp hdup with ⟨r, hr, hk⟩
        have h3 := hinv tag r hr hk
        exact h3 ▸ hr
      · rw [if_neg hdup, getBucket, lookupA_putA, if_pos rfl, Option.getD_some]
        exact List.mem_append_right _ (List.mem_singleton.mpr rfl)
    obtain ⟨hmem, hinv3⟩ := ih (addQuoteToTag db q tag) q hinv2
    refine ⟨?_, hinv3⟩
    intro t ht
    rcases List.mem_cons.mp ht with rfl | ht2
    · exact getBucket_addQuoteTags_mono rest _ q t q hq_in
    · exact hmem t ht2

/-- Claim C7 part: on a collection without duplicate keys, every record
ends up — itself — in the bucket of each of its tags. -/
theorem organizeLoop_self_mem (qs : List Quote) :
    ∀ db, (qs.map quoteKey).Nodup →
      (∀ t r, r ∈ getBucket db t → quoteKey r ∉ qs.map quoteKey) →
      ∀ q ∈ qs, ∀ tag ∈ q.tags, q ∈ getBucket (organizeLoop db qs) tag := by
  induction qs with
  | nil =>
    intro db _ _ q hq
    simp at hq
  | cons q0 rest ih =>
    intro db hnodup hdisj q hq tag htag
    have hnodup2 : (rest.map quoteKey).Nodup :=
      (List.nodup_cons.mp (by simpa using hnodup)).2
    have hq0notin : quoteKey q0 ∉ rest.map quoteKey :=
      (List.nodup_cons.mp (by simpa using hnodup)).1
    have hinv : ∀ t r, r ∈ getBucket db t → quoteKey r = quoteKey q0 → r = q0 := by
      intro t r hr hk
      exfalso
      apply hdisj t r hr
      rw [List.map_cons, hk]
      exact List.mem_cons_self _ _
    obtain ⟨hmem0, hinv2⟩ := addQuoteTags_self_mem q0.tags db q0 hinv
    have hdisj2 : ∀ t r, r ∈ getBucket (addQuoteTags q0 db q0.tags) t →
        quoteKey r ∉ rest.map quoteKey := by
      intro t r hr
      rcases getBucket_addQuoteTags_provenance q0.tags db q0 t r hr with h2 | h2
      · intro hc
        apply hdisj t r h2
        rw [List.map_cons]
        exact List.mem_cons_of_mem _ hc
      · subst h2
        exact hq0notin
    rw [organizeLoop]
    rcases List.mem_cons.mp hq with rfl | hq2
    · exact getBucket_organizeLoop_mono rest _ tag q (hmem0 tag htag)
    · exact ih (addQuoteTags q0 db q0.tags) hnodup2 hdisj2 q hq2 tag htag

/-- Claim C7: `organize_by_tags` places each record, keyed by its
normalized text, into the bucket of every tag it carries (the key is in
every such bucket); no bucket ever holds two records with the same
normalized text (bucket-local dedup — a record is not appended to a
bucket that already contains its key); and when the collection itself
carries no duplicate keys, each record appears, with identical field
content, in the bucket of every one of its tags. -/
theorem c7_organize_by_tags :
    (∀ (qs : List Quote) (q : Quote) (tag : String), q ∈ qs → tag ∈ q.tags →
      quoteKey q ∈ ((getBucket (organize_by_tags qs) tag).map quoteKey)) ∧
    (∀ (qs : List Quote) (tag : String),
      ((getBucket (organize_by_tags qs) tag).map quoteKey).Nodup) ∧
    (∀ qs : List Quote, (qs.map quoteKey).Nodup →
      ∀ q ∈ qs, ∀ tag ∈ q.tags, q ∈ getBucket (organize_by_tags qs) tag) := by
  refine ⟨?_, ?_, ?_⟩
  · intro qs q tag hq htag
    exact quoteKey_mem_organizeLoop qs [] q tag hq htag
  · intro qs tag
    refine nodup_organizeLoop qs [] ?_ tag
    intro t
    simp [getBucket, lookupA]
  · intro qs hnodup q hq tag htag
    refine organizeLoop_self_mem qs [] hnodup ?_ q hq tag htag
    intro t r hr
    simp [getBucket, lookupA] at hr

/-- Claim C7 witness at a concrete input: the record with tags
`["a", "b"]` appears identically in both partitions. -/
theorem c7_witness :
    (⟨"X", "Y", "s", ["a", "b"]⟩ : Quote) ∈
      getBucket (organize_by_tags [⟨"X", "Y", "s", ["a", "b"]⟩]) "a" ∧
    (⟨"X", "Y", "s", ["a", "b"]⟩ : Quote) ∈
      getBucket (organize_by_tags [⟨"X", "Y", "s", ["a", "b"]⟩]) "b" :=
  ⟨c7_organize_by_tags.2.2 [⟨"X", "Y", "s", ["a", "b"]⟩] (by decide)
     ⟨"X", "Y", "s", ["a", "b"]⟩ (by decide) "a" (by decide),
   c7_organize_by_tags.2.2 [⟨"X", "Y", "s", ["a", "b"]⟩] (by decide)
     ⟨"X", "Y", "s", ["a", "b"]⟩ (by decide) "b" (by decide)⟩
